import Mathlib

/-!
Verification of the `mcp-registry-interface` MCP server (src/index.js).
Shallow embedding: strings are modelled as `List Char`; the JavaScript
regular expressions of `parseREADMEContent` are translated into
deterministic matching functions (the relevant regexes are deterministic
up to the whitespace backtracking that is modelled explicitly below);
the mutable cache (`cachedServers`, `lastFetchTime`) is modelled as
explicit state passing, with the outcome of the single network fetch
supplied as a parameter.  The pseudo-random `downloads` and `stars`
fields are omitted from the record (no claim concerns them).
JavaScript `toLowerCase` is modelled on the ASCII range.
-/

set_option maxRecDepth 8192

namespace MCPRegistry

/-- JavaScript whitespace class `\s`. -/
def isJsWs (c : Char) : Bool :=
  c = ' ' ∨ c = '\t' ∨ c = '\n' ∨ c = '\r' ∨ c.toNat = 11 ∨ c.toNat = 12 ∨
  c.toNat = 0xa0 ∨ c.toNat = 0x1680 ∨ (0x2000 ≤ c.toNat ∧ c.toNat ≤ 0x200a) ∨
  c.toNat = 0x2028 ∨ c.toNat = 0x2029 ∨ c.toNat = 0x202f ∨ c.toNat = 0x205f ∨
  c.toNat = 0x3000 ∨ c.toNat = 0xfeff

/-- ASCII model of JavaScript `toLowerCase`. -/
def jsLower (c : Char) : Char :=
  if 65 ≤ c.toNat ∧ c.toNat ≤ 90 then Char.ofNat (c.toNat + 32) else c

/-- Replace each maximal run of characters satisfying `p` by the single
character `rep` (the shape of the whitespace-run and hyphen-run
replacements of the source). -/
def collapseRuns (p : Char → Bool) (rep : Char) : List Char → List Char
  | [] => []
  | [c] => if p c then [rep] else [c]
  | c :: d :: cs =>
    if p c then
      (if p d then collapseRuns p rep (d :: cs) else rep :: collapseRuns p rep (d :: cs))
    else c :: collapseRuns p rep (d :: cs)

/-- Reference and community id derivation: `toLowerCase`, then each
whitespace run becomes a single hyphen. -/
def normSp (s : List Char) : List Char :=
  collapseRuns isJsWs '-' (s.map jsLower)

/-- Fallback-pass id derivation: `toLowerCase`, then every character
outside `[a-z0-9-]` becomes a hyphen, then hyphen runs collapse to one. -/
def fbNorm (s : List Char) : List Char :=
  collapseRuns (fun c => c = '-') '-'
    ((s.map jsLower).map (fun c =>
      if ('a' ≤ c ∧ c ≤ 'z') ∨ ('0' ≤ c ∧ c ≤ '9') ∨ c = '-' then c else '-'))

/-- JavaScript `trim` (both ends, JS whitespace class). -/
def trimWs (s : List Char) : List Char :=
  (((s.dropWhile isJsWs).reverse).dropWhile isJsWs).reverse

/-- Splitting on the newline character, returned as first line plus
remaining lines. -/
def splitNl : List Char → List Char × List (List Char)
  | [] => ([], [])
  | c :: rest =>
    let r := splitNl rest
    if c = '\n' then ([], r.1 :: r.2) else (c :: r.1, r.2)

/-- All lines of the newline split. -/
def linesOf (s : List Char) : List (List Char) :=
  (splitNl s).1 :: (splitNl s).2

/-- Match `\s*(X+)` at the start of `r`, where `X` is the character class
decided by `ok`: the greedy `\s*` backtracks just enough for `X+` to match
at least one character.  Returns the captured run and the remainder after it. -/
def matchSkipWsThen (ok : Char → Bool) : List Char → Option (List Char × List Char)
  | [] => none
  | c :: rest =>
    if isJsWs c then
      match matchSkipWsThen ok rest with
      | some p => some p
      | none => if ok c then some (c :: rest.takeWhile ok, rest.dropWhile ok) else none
    else
      if ok c then some (c :: rest.takeWhile ok, rest.dropWhile ok) else none

/-- The character class `.` of JavaScript regexes (anything except a line
terminator). -/
def isDot (c : Char) : Bool :=
  ¬ (c = '\n' ∨ c = '\r' ∨ c.toNat = 0x2028 ∨ c.toNat = 0x2029)

/-- The character class `[^•·\n]` of the fallback-pass regex. -/
def isFbDesc (c : Char) : Bool :=
  ¬ (c = '•' ∨ c = '·' ∨ c = '\n')

/-- Match `\*\*([^*]+)\*\*\s*-\s*(X+)` at the very start of `r`, where the
class `X` is decided by `ok`; returns the bold name (`[^*]+`, non-empty),
the captured description and the remainder after the match. -/
def matchStars (ok : Char → Bool) (r : List Char) : Option (List Char × List Char × List Char) :=
  match r with
  | a :: b :: r2 =>
    if a = '*' ∧ b = '*' ∧ r2.takeWhile (fun x => ¬ x = '*') ≠ [] then
      match r2.dropWhile (fun x => ¬ x = '*') with
      | c :: d :: r4 =>
        if c = '*' ∧ d = '*' then
          match r4.dropWhile isJsWs with
          | e :: r6 =>
            if e = '-' then
              (matchSkipWsThen ok r6).map
                (fun p => (r2.takeWhile (fun x => ¬ x = '*'), p.1, p.2))
            else none
          | [] => none
        else none
      | _ => none
    else none
  | _ => none

/-- Match the section bullet regex `^[•·-]\s*\*\*([^*]+)\*\*\s*-\s*(.+)`
against one line, returning the bold name and the description. -/
def matchBulletLine (line : List Char) : Option (List Char × List Char) :=
  match line with
  | [] => none
  | c :: r0 =>
    if c = '•' ∨ c = '·' ∨ c = '-' then
      (matchStars isDot (r0.dropWhile isJsWs)).map (fun t => (t.1, t.2.1))
    else none

/-- Case-insensitive character code (JavaScript `i` flag, ASCII range). -/
def lcode (c : Char) : Nat :=
  if 65 ≤ c.toNat ∧ c.toNat ≤ 90 then c.toNat + 32 else c.toNat

/-- Does `s` start with `pat`, case-insensitively? -/
def startsWithCI (pat s : List Char) : Bool :=
  (s.take pat.length).map lcode = pat.map lcode

/-- First suffix of `s` at which `pat` matches case-insensitively
(the scan of `content.match(/pat.../i)` for the match start). -/
def findFirstCI (pat : List Char) : List Char → Option (List Char)
  | [] => if startsWithCI pat [] then some [] else none
  | c :: rest =>
    if startsWithCI pat (c :: rest) then some (c :: rest) else findFirstCI pat rest

/-- The lazy `[\s\S]*?(?=##|$)` continuation: everything up to (excluding)
the next occurrence of `##`, or the whole remainder. -/
def upToHashes : List Char → List Char
  | [] => []
  | [c] => [c]
  | c :: d :: rest => if c = '#' ∧ d = '#' then [] else c :: upToHashes (d :: rest)

/-- Model of a section match: the heading matched case-insensitively at
the earliest position, then the lazy continuation; the matched text, if
any. -/
def sectionMatch (heading content : List Char) : Option (List Char) :=
  match findFirstCI heading content with
  | none => none
  | some s => some (s.take heading.length ++ upToHashes (s.drop heading.length))

/-- One parsed server entry.  The pseudo-random `downloads`/`stars` fields
of the source are omitted (no claim concerns them). -/
structure Server where
  id : List Char
  name : List Char
  description : List Char
  category : List Char
  author : List Char
  repositoryUrl : List Char
  version : List Char
  tags : List (List Char)
  deriving DecidableEq, Repr

/-- Entry pushed by the reference-servers pass. -/
def refEntry (nm desc : List Char) : Server :=
  { id := "mcp-".data ++ normSp nm
    name := "mcp-".data ++ normSp nm
    description := desc
    category := "official".data
    author := "Anthropic".data
    repositoryUrl := "https://github.com/modelcontextprotocol/servers".data
    version := "1.0.0".data
    tags := ["official".data, "reference".data] }

/-- Entry pushed by the community-servers pass. -/
def comEntry (nm desc : List Char) : Server :=
  { id := normSp nm
    name := nm
    description := desc
    category := "community".data
    author := "Community".data
    repositoryUrl := "https://github.com/community/".data ++ nm
    version := "0.1.0".data
    tags := ["community".data] }

/-- Substring containment (JavaScript `String.prototype.includes`). -/
def containsSub (needle : List Char) : List Char → Bool
  | [] => needle.isEmpty
  | c :: rest => (List.take needle.length (c :: rest) == needle) || containsSub needle rest

/-- Entry pushed by the fallback pass (category and tag are derived
heuristically from the raw name). -/
def fbEntry (nm desc : List Char) : Server :=
  { id := fbNorm nm
    name := nm
    description := trimWs desc
    category := if containsSub "MCP".data nm || containsSub "server".data nm
                then "official".data else "community".data
    author := "Community".data
    repositoryUrl := "https://github.com/community/".data ++ fbNorm nm
    version := "1.0.0".data
    tags := [if containsSub "MCP".data nm then "official".data else "community".data] }

/-- One step of the fallback-pass accumulation loop: push the entry unless
the name is 50+ characters long or its derived id is already present. -/
def fbStep (ss : List Server) (p : List Char × List Char) : List Server :=
  if p.1.length < 50 then
    if ss.any (fun s => s.id == fbNorm p.1) then ss else ss ++ [fbEntry p.1 p.2]
  else ss

/-- Try the fallback regex `\*\*([^*]+)\*\*\s*-\s*([^•·\n]+)` at the very
start of `s`; on success return name, description and the remainder after
the match (the `lastIndex` continuation point). -/
def fbMatchAt (s : List Char) : Option (List Char × List Char × List Char) :=
  matchStars isFbDesc s

/-- The `while ((match = serverPattern.exec(content)) !== null)` loop:
successive non-overlapping leftmost matches.  `fuel` bounds the recursion;
each step consumes at least one character, so `fuel = s.length` is enough. -/
def fbScanAux : Nat → List Char → List (List Char × List Char)
  | 0, _ => []
  | Nat.succ k, s =>
    match fbMatchAt s with
    | some (nm, d, after) => (nm, d) :: fbScanAux k after
    | none =>
      match s with
      | [] => []
      | _ :: rest => fbScanAux k rest

/-- All matches of the fallback regex over the whole document. -/
def fbScan (s : List Char) : List (List Char × List Char) :=
  fbScanAux s.length s

/-- Bullet entries of one matched section, built by `mk`. -/
def sectionEntries (mk : List Char → List Char → Server)
    (sec : Option (List Char)) : List Server :=
  match sec with
  | none => []
  | some text => (linesOf text).filterMap (fun l => (matchBulletLine l).map (fun p => mk p.1 p.2))

/-- The entries produced by the reference and community passes. -/
def passEntries (content : List Char) : List Server :=
  sectionEntries refEntry (sectionMatch "## Reference Servers".data content) ++
  sectionEntries comEntry (sectionMatch "## Community Servers".data content)

/-- The extractor `parseREADMEContent`: reference pass, community pass, fallback pass
with id-based de-duplication, truncated to 50 entries. -/
def parseREADMEContent (content : List Char) : List Server :=
  ((fbScan content).foldl fbStep (passEntries content)).take 50

/-! ## Freshness cache (`cachedServers`, `lastFetchTime`, `getServersData`) -/

/-- The module-level mutable cache: `cachedServers` (null or a list) and
`lastFetchTime`. -/
structure CacheState where
  cachedServers : Option (List Server)
  lastFetchTime : Int
  deriving DecidableEq, Repr

/-- Cache freshness window, `CACHE_DURATION = 5 * 60 * 1000` milliseconds. -/
def CACHE_DURATION : Int := 5 * 60 * 1000

/-- The fetch path of `getServersData`: `fetchRealMCPServers` fetches the
README and parses it; a non-empty result replaces the cache, an empty one
throws the explicit error, a failed fetch propagates; the cache is
untouched on failure. -/
def getServersDataFetch (now : Int) (fetch : Except String (List Char))
    (st : CacheState) : Except String (List Server) × CacheState × Bool :=
  match fetch with
  | Except.error e => (Except.error e, st, true)
  | Except.ok readme =>
    let servers := parseREADMEContent readme
    if servers.length > 0 then (Except.ok servers, ⟨some servers, now⟩, true)
    else (Except.error "Unable to fetch MCP servers from GitHub. Please check your internet connection and GitHub API availability.", st, true)

/-- Model of `getServersData`, with the current clock value and the outcome of the
(at most one) network fetch of the raw README passed explicitly.  Returns
the result (servers or the thrown error message), the new cache state, and
whether `fetchRealMCPServers` was invoked. -/
def getServersData (now : Int) (fetch : Except String (List Char))
    (st : CacheState) : Except String (List Server) × CacheState × Bool :=
  match st.cachedServers with
  | some cs =>
    if now - st.lastFetchTime < CACHE_DURATION then (Except.ok cs, st, false)
    else getServersDataFetch now fetch st
  | none => getServersDataFetch now fetch st

/-- The `registry_refresh_data` handler: set `cachedServers = null` and
`lastFetchTime = 0`, then call `getServersData`. -/
def refreshData (now : Int) (fetch : Except String (List Char))
    (_st : CacheState) : Except String (List Server) × CacheState × Bool :=
  getServersData now fetch ⟨none, 0⟩

/-! ## Query engine (tool handlers on a given snapshot) -/

/-- Does `s` match a (non-empty) search query: name, description or some
tag contains it case-insensitively? -/
def matchesQuery (q : List Char) (s : Server) : Bool :=
  containsSub (q.map jsLower) (s.name.map jsLower) ||
  containsSub (q.map jsLower) (s.description.map jsLower) ||
  s.tags.any (fun t => containsSub (q.map jsLower) (t.map jsLower))

/-- Exact case-insensitive category match. -/
def matchesCat (c : List Char) (s : Server) : Bool :=
  s.category.map jsLower == c.map jsLower

/-- The filtering/truncation logic of the `registry_search_servers`
handler.  `none` models an absent argument; empty strings are falsy in the
source, so an empty query or category skips its filter; `limit` defaults
to 20 only when absent. -/
def searchServers (servers : List Server) (query category : Option (List Char))
    (limit : Option Nat) : List Server :=
  let afterQuery :=
    match query with
    | none => servers
    | some q => if q = [] then servers else servers.filter (matchesQuery q)
  let afterCat :=
    match category with
    | none => afterQuery
    | some c => if c = [] then afterQuery else afterQuery.filter (matchesCat c)
  afterCat.take (limit.getD 20)

/-- The flexible lookup of the `registry_get_server_details` handler:
first entry whose id or name equals `serverId`, or equals `serverId`
prefixed with `mcp-`. -/
def findServer (servers : List Server) (serverId : List Char) : Option Server :=
  servers.find? (fun s =>
    s.id == serverId || s.name == serverId ||
    s.id == "mcp-".data ++ serverId || s.name == "mcp-".data ++ serverId)

/-- Outcome of the `registry_get_server_details` handler. -/
inductive DetailsResult where
  | detail (s : Server)
  | notFound
  | errMissing
  deriving DecidableEq, Repr

/-- Handler `registry_get_server_details`: a missing (falsy) `serverId` throws and
is caught as an error result; an unmatched id yields a plain not-found
text; a match yields the detail block.  The `Bool` is the `isError` flag
of the returned content. -/
def getServerDetails (servers : List Server) (serverId : List Char) :
    DetailsResult × Bool :=
  if serverId = [] then (DetailsResult.errMissing, true)
  else
    match findServer servers serverId with
    | some s => (DetailsResult.detail s, false)
    | none => (DetailsResult.notFound, false)

/-- Lookup `getCategoryDescription`: static table with a generic fallback. -/
def getCategoryDescription (c : List Char) : List Char :=
  if c = "official".data then "Official MCP servers maintained by Anthropic".data
  else if c = "community".data then "Community-contributed MCP servers".data
  else if c = "filesystem".data then "File and directory operations".data
  else if c = "development".data then "Development tools and version control".data
  else if c = "memory".data then "Memory and context management systems".data
  else if c = "database".data then "Database connectivity and operations".data
  else if c = "web".data then "Web scraping and HTTP operations".data
  else if c = "ai".data then "AI model integrations and tools".data
  else "Various MCP server functionality".data

/-- Effective category: an empty (falsy) category falls back to the
literal `other`. -/
def effCategory (s : Server) : List Char :=
  if s.category = [] then "other".data else s.category

/-- One step of the category-count accumulation of
`registry_list_categories` (object keyed by category, insertion order). -/
def bumpCat (acc : List (List Char × Nat)) (cat : List Char) :
    List (List Char × Nat) :=
  if acc.any (fun p => p.1 == cat) then
    acc.map (fun p => if p.1 == cat then (p.1, p.2 + 1) else p)
  else acc ++ [(cat, 1)]

/-- The per-category counts of `registry_list_categories`. -/
def categoriesOf (servers : List Server) : List (List Char × Nat) :=
  servers.foldl (fun acc s => bumpCat acc (effCategory s)) []

/-- The `registry_list_categories` handler output: category name, count
and description. -/
def listCategories (servers : List Server) : List (List Char × Nat × List Char) :=
  (categoriesOf servers).map (fun p => (p.1, p.2, getCategoryDescription p.1))

/-! ## Concrete inputs used by the claims -/

/-- The end-to-end sample document of the specification. -/
def sampleDoc : List Char :=
  "## Reference Servers\n- **Filesystem** - Secure file ops\n## Community Servers\n- **Slack Bot** - Chat integration".data

/-- A document whose reference section repeats one bullet name. -/
def dupDoc : List Char :=
  "## Reference Servers\n- **Foo** - a\n- **Foo** - b".data

/-- A document with no bullet line at all, but with a generic
`**name** - description` occurrence. -/
def noBulletDoc : List Char := "see **Foo** - bar".data

/-- The reference-pass entry extracted from the sample document. -/
def fsEntry : Server := refEntry "Filesystem".data "Secure file ops".data

/-- The community-pass entry extracted from the sample document. -/
def sbEntry : Server := comEntry "Slack Bot".data "Chat integration".data

/-- Statement that `p` is a leading part of `l` (kept first-order). -/
def listPref (p l : List Char) : Prop := ∃ t, p ++ t = l

/-- The reachable-cache invariant: the cache never holds an empty list
(`cachedServers` is only ever assigned a list of positive length). -/
def cacheInv (st : CacheState) : Prop :=
  ∀ cs, st.cachedServers = some cs → cs ≠ []

/-- A cache state holding one stale snapshot (timestamp 1000). -/
def stWithCache : CacheState := ⟨some [fsEntry], 1000⟩

/-! ## Supporting lemmas -/

theorem collapseRuns_cons_of_neg (p : Char → Bool) (rep c : Char) (x : List Char)
    (h : p c = false) : collapseRuns p rep (c :: x) = c :: collapseRuns p rep x := by
  cases x with
  | nil => simp [collapseRuns, h]
  | cons d cs => simp [collapseRuns, h]

theorem normSp_mcp_append (x : List Char) :
    normSp ("mcp-".data ++ x) = "mcp-".data ++ normSp x := by
  show normSp ('m' :: 'c' :: 'p' :: '-' :: x) = 'm' :: 'c' :: 'p' :: '-' :: normSp x
  unfold normSp
  simp only [List.map_cons]
  rw [show jsLower 'm' = 'm' from by decide, show jsLower 'c' = 'c' from by decide,
    show jsLower 'p' = 'p' from by decide, show jsLower '-' = '-' from by decide]
  rw [collapseRuns_cons_of_neg _ _ _ _ (by decide), collapseRuns_cons_of_neg _ _ _ _ (by decide),
    collapseRuns_cons_of_neg _ _ _ _ (by decide), collapseRuns_cons_of_neg _ _ _ _ (by decide)]

/-- No string equals its own `mcp-`-prefixed space-normalised form. -/
theorem mcp_append_normSp_ne (x : List Char) : "mcp-".data ++ normSp x ≠ x := by
  have key : ∀ n : Nat, ∀ y : List Char, y.length = n → "mcp-".data ++ normSp y ≠ y := by
    intro n
    induction n using Nat.strong_induction_on with
    | _ n ih =>
      intro y hn heq
      have hy : y = 'm' :: 'c' :: 'p' :: '-' :: normSp y := heq.symm
      have hfix : normSp y = "mcp-".data ++ normSp (normSp y) := by
        conv_lhs => rw [hy]
        exact normSp_mcp_append (normSp y)
      have hlen : (normSp y).length < n := by
        have h4 : y.length = 4 + (normSp y).length := by
          conv_lhs => rw [hy]
          simp
          omega
        omega
      exact ih (normSp y).length hlen (normSp y) rfl hfix.symm
  exact key x.length x rfl

theorem fbStep_id_nodup (ss : List Server) (p : List Char × List Char)
    (h : (ss.map Server.id).Nodup) : ((fbStep ss p).map Server.id).Nodup := by
  unfold fbStep
  split
  · split
    · exact h
    · rename_i hlen hany
      rw [List.map_append, List.nodup_append]
      refine ⟨h, List.nodup_singleton _, ?_⟩
      intro a ha hb
      simp only [List.map_cons, List.map_nil, List.mem_singleton] at hb
      subst hb
      apply hany
      rw [List.any_eq_true]
      rcases List.mem_map.mp ha with ⟨s, hs, hsid⟩
      exact ⟨s, hs, by simp [fbEntry] at hsid ⊢; exact hsid⟩
  · exact h

theorem foldl_fbStep_id_nodup (l : List (List Char × List Char)) (ss : List Server)
    (h : (ss.map Server.id).Nodup) : ((l.foldl fbStep ss).map Server.id).Nodup := by
  induction l generalizing ss with
  | nil => exact h
  | cons p l ih => exact ih _ (fbStep_id_nodup ss p h)

theorem bumpCat_map_fst (acc : List (List Char × Nat)) (cat : List Char) :
    (bumpCat acc cat).map Prod.fst =
      if acc.any (fun p => p.1 == cat) then acc.map Prod.fst
      else acc.map Prod.fst ++ [cat] := by
  unfold bumpCat
  split
  · rw [List.map_map]
    apply List.map_congr_left
    intro p _
    by_cases hp : (p.1 == cat) = true <;> simp [hp, Function.comp]
  · simp

theorem sum_map_bump (acc : List (List Char × Nat)) (cat : List Char)
    (hnd : (acc.map Prod.fst).Nodup) (hany : acc.any (fun p => p.1 == cat) = true) :
    ((acc.map (fun p => if p.1 == cat then (p.1, p.2 + 1) else p)).map Prod.snd).sum
      = (acc.map Prod.snd).sum + 1 := by
  induction acc with
  | nil => simp at hany
  | cons p acc ih =>
    simp only [List.map_cons, List.any_cons, Bool.or_eq_true] at hnd hany
    by_cases hp : (p.1 == cat) = true
    · have hcat : p.1 = cat := by simpa using hp
      have hnm : acc.map (fun x => if x.1 == cat then (x.1, x.2 + 1) else x) = acc := by
        have hid : ∀ x ∈ acc,
            (if x.1 == cat then (x.1, x.2 + 1) else x) = id x := by
          intro x hx
          have hxne : ¬ (x.1 == cat) = true := by
            intro hxe
            have hxc : x.1 = cat := by simpa using hxe
            exact (List.nodup_cons.mp hnd).1
              (by rw [hcat, ← hxc]; exact List.mem_map_of_mem _ hx)
          simp [hxne]
        rw [List.map_congr_left hid, List.map_id]
      simp only [List.map_cons, hp, if_true, hnm, List.sum_cons]
      omega
    · have hany2 : acc.any (fun x => x.1 == cat) = true := by
        rcases hany with h1 | h2
        · exact absurd h1 hp
        · exact h2
      have hrec := ih (List.nodup_cons.mp hnd).2 hany2
      simp only [List.map_cons, if_neg hp, List.sum_cons, hrec]
      omega

theorem bumpCat_sum (acc : List (List Char × Nat)) (cat : List Char)
    (hnd : (acc.map Prod.fst).Nodup) :
    ((bumpCat acc cat).map Prod.snd).sum = (acc.map Prod.snd).sum + 1 := by
  unfold bumpCat
  split
  · rename_i hany
    exact sum_map_bump acc cat hnd hany
  · simp

theorem bumpCat_fst_nodup (acc : List (List Char × Nat)) (cat : List Char)
    (hnd : (acc.map Prod.fst).Nodup) : ((bumpCat acc cat).map Prod.fst).Nodup := by
  rw [bumpCat_map_fst]
  split
  · exact hnd
  · rename_i hany
    rw [List.nodup_append]
    refine ⟨hnd, List.nodup_singleton _, ?_⟩
    intro k hk hk1
    simp only [List.mem_singleton] at hk1
    subst hk1
    apply hany
    rw [List.any_eq_true]
    rcases List.mem_map.mp hk with ⟨p, hp, hpk⟩
    exact ⟨p, hp, by simp [hpk]⟩

theorem mem_bumpCat_fst_self (acc : List (List Char × Nat)) (cat : List Char) :
    cat ∈ (bumpCat acc cat).map Prod.fst := by
  rw [bumpCat_map_fst]
  split
  · rename_i hany
    rcases List.any_eq_true.mp hany with ⟨p, hp, hpc⟩
    have : p.1 = cat := by simpa using hpc
    rw [← this]
    exact List.mem_map_of_mem _ hp
  · simp

theorem mem_bumpCat_fst_mono (acc : List (List Char × Nat)) (cat k : List Char)
    (h : k ∈ acc.map Prod.fst) : k ∈ (bumpCat acc cat).map Prod.fst := by
  rw [bumpCat_map_fst]
  split
  · exact h
  · exact List.mem_append_left _ h

theorem categoriesOf_aux (servers : List Server) (acc : List (List Char × Nat))
    (hnd : (acc.map Prod.fst).Nodup) :
    ((servers.foldl (fun a s => bumpCat a (effCategory s)) acc).map Prod.fst).Nodup ∧
    ((servers.foldl (fun a s => bumpCat a (effCategory s)) acc).map Prod.snd).sum
      = (acc.map Prod.snd).sum + servers.length ∧
    (∀ k, k ∈ acc.map Prod.fst →
      k ∈ (servers.foldl (fun a s => bumpCat a (effCategory s)) acc).map Prod.fst) ∧
    (∀ s ∈ servers,
      effCategory s ∈ (servers.foldl (fun a s => bumpCat a (effCategory s)) acc).map Prod.fst) := by
  induction servers generalizing acc with
  | nil => exact ⟨hnd, by simp, fun k hk => hk, fun s hs => absurd hs (List.not_mem_nil s)⟩
  | cons s servers ih =>
    have hnd2 := bumpCat_fst_nodup acc (effCategory s) hnd
    rcases ih (bumpCat acc (effCategory s)) hnd2 with ⟨h1, h2, h3, h4⟩
    refine ⟨h1, ?_, ?_, ?_⟩
    · simp only [List.foldl_cons, h2, bumpCat_sum acc (effCategory s) hnd, List.length_cons]
      omega
    · intro k hk
      exact h3 k (mem_bumpCat_fst_mono acc (effCategory s) k hk)
    · intro x hx
      rcases List.mem_cons.mp hx with hx1 | hx2
      · subst hx1
        exact h3 (effCategory x) (mem_bumpCat_fst_self acc (effCategory x))
      · exact h4 x hx2

theorem dropWhile_append_of_ne_nil (p : Char → Bool) (x q : List Char)
    (h : x.dropWhile p ≠ []) : (x ++ q).dropWhile p = x.dropWhile p ++ q := by
  rw [List.dropWhile_append, if_neg]
  simpa [List.isEmpty_iff] using h

theorem takeWhile_append_of_ne_nil (p : Char → Bool) (x q : List Char)
    (h : x.dropWhile p ≠ []) : (x ++ q).takeWhile p = x.takeWhile p := by
  rw [List.takeWhile_append, if_neg]
  intro hlen
  apply h
  have hsum : (x.takeWhile p).length + (x.dropWhile p).length = x.length := by
    rw [← List.length_append, List.takeWhile_append_dropWhile]
  have hz : (x.dropWhile p).length = 0 := by omega
  exact List.length_eq_zero.mp hz

theorem matchSkipWsThen_append_isSome (ok : Char → Bool) (r q : List Char)
    (h : (matchSkipWsThen ok r).isSome) : (matchSkipWsThen ok (r ++ q)).isSome := by
  induction r with
  | nil => simp [matchSkipWsThen] at h
  | cons c rest ih =>
    rw [List.cons_append]
    unfold matchSkipWsThen at h ⊢
    by_cases hws : isJsWs c = true
    · rw [if_pos hws] at h ⊢
      cases hrec : matchSkipWsThen ok rest with
      | some p =>
        have hs : (matchSkipWsThen ok (rest ++ q)).isSome := ih (by rw [hrec]; rfl)
        cases hrec2 : matchSkipWsThen ok (rest ++ q) with
        | some p2 => simp [hrec2]
        | none => rw [hrec2] at hs; simp at hs
      | none =>
        rw [hrec] at h
        by_cases hok : ok c = true
        · cases hrec2 : matchSkipWsThen ok (rest ++ q) with
          | some p2 => simp [hrec2]
          | none => simp [hrec2, hok]
        · rw [if_neg hok] at h
          simp at h
    · rw [if_neg hws] at h ⊢
      by_cases hok : ok c = true
      · simp [hok]
      · rw [if_neg hok] at h
        simp at h

theorem matchStars_append_isSome (ok : Char → Bool) (r q : List Char)
    (h : (matchStars ok r).isSome) : (matchStars ok (r ++ q)).isSome := by
  match r with
  | [] => simp [matchStars] at h
  | [a] => simp [matchStars] at h
  | a :: b :: r2 =>
    simp only [List.cons_append]
    simp only [matchStars] at h ⊢
    by_cases hab : a = '*' ∧ b = '*' ∧ r2.takeWhile (fun x => ¬ x = '*') ≠ []
    · rw [if_pos hab] at h
      have hdne : r2.dropWhile (fun x => ¬ x = '*') ≠ [] := by
        intro hnil
        simp only [hnil] at h
        simp at h
      rw [if_pos ⟨hab.1, hab.2.1, by
        rw [takeWhile_append_of_ne_nil _ r2 q hdne]; exact hab.2.2⟩]
      rw [dropWhile_append_of_ne_nil _ r2 q hdne]
      rw [takeWhile_append_of_ne_nil _ r2 q hdne]
      cases hdw : r2.dropWhile (fun x => ¬ x = '*') with
      | nil => exact absurd hdw hdne
      | cons c rest =>
        cases rest with
        | nil =>
          simp only [hdw] at h
          simp at h
        | cons d r4 =>
          simp only [hdw] at h
          simp only [List.cons_append]
          by_cases hcd : c = '*' ∧ d = '*'
          · rw [if_pos hcd] at h ⊢
            cases hdw2 : r4.dropWhile isJsWs with
            | nil =>
              simp only [hdw2] at h
              simp at h
            | cons e r6 =>
              simp only [hdw2] at h
              have hdne2 : r4.dropWhile isJsWs ≠ [] := by
                rw [hdw2]
                simp
              rw [dropWhile_append_of_ne_nil _ r4 q hdne2, hdw2]
              simp only [List.cons_append]
              by_cases he : e = '-'
              · rw [if_pos he] at h ⊢
                have h6 : (matchSkipWsThen ok r6).isSome := by
                  cases hms : matchSkipWsThen ok r6 with
                  | none => rw [hms] at h; simp at h
                  | some p => simp
                have h6q := matchSkipWsThen_append_isSome ok r6 q h6
                cases hms2 : matchSkipWsThen ok (r6 ++ q) with
                | none => rw [hms2] at h6q; simp at h6q
                | some p => simp [hms2]
              · rw [if_neg he] at h
                simp at h
          · rw [if_neg hcd] at h
            simp at h
    · rw [if_neg hab] at h
      simp at h

theorem matchBulletLine_append_isSome (p q : List Char)
    (h : (matchBulletLine p).isSome) : (matchBulletLine (p ++ q)).isSome := by
  cases p with
  | nil => simp [matchBulletLine] at h
  | cons c p1 =>
    simp only [List.cons_append]
    simp only [matchBulletLine] at h ⊢
    by_cases hc : c = '•' ∨ c = '·' ∨ c = '-'
    · rw [if_pos hc] at h ⊢
      have h1 : (matchStars isDot (p1.dropWhile isJsWs)).isSome := by
        cases hms : matchStars isDot (p1.dropWhile isJsWs) with
        | none => rw [hms] at h; simp at h
        | some t => simp
      have hne : p1.dropWhile isJsWs ≠ [] := by
        intro hnil
        rw [hnil] at h1
        simp [matchStars] at h1
      rw [dropWhile_append_of_ne_nil _ p1 q hne]
      have h2 := matchStars_append_isSome isDot _ q h1
      cases hms2 : matchStars isDot (p1.dropWhile isJsWs ++ q) with
      | none => rw [hms2] at h2; simp at h2
      | some t => simp [hms2]
    · rw [if_neg hc] at h
      simp at h

theorem splitNl_fst_pref (p q : List Char) :
    listPref (splitNl p).1 (splitNl (p ++ q)).1 := by
  induction p with
  | nil => exact ⟨(splitNl q).1, rfl⟩
  | cons c p ih =>
    rw [List.cons_append]
    simp only [splitNl]
    by_cases hc : c = '\n'
    · simp only [hc, if_true]
      exact ⟨[], rfl⟩
    · simp only [if_neg hc]
      rcases ih with ⟨t, ht⟩
      refine ⟨t, ?_⟩
      rw [← ht]
      simp

theorem mem_splitNl_snd_append_left (a s : List Char) :
    ∀ l ∈ (splitNl s).2, l ∈ (splitNl (a ++ s)).2 := by
  induction a with
  | nil => exact fun l hl => hl
  | cons c a ih =>
    intro l hl
    rw [List.cons_append]
    simp only [splitNl]
    by_cases hc : c = '\n'
    · simp only [hc, if_true]
      exact List.mem_cons_of_mem _ (ih l hl)
    · simp only [if_neg hc]
      exact ih l hl

theorem splitNl_snd_pref (p q : List Char) :
    ∀ l ∈ (splitNl p).2, ∃ l2, l2 ∈ (splitNl (p ++ q)).2 ∧ listPref l l2 := by
  induction p with
  | nil => intro l hl; simp [splitNl] at hl
  | cons c p ih =>
    intro l hl
    rw [List.cons_append]
    simp only [splitNl] at hl ⊢
    by_cases hc : c = '\n'
    · simp only [hc, if_true] at hl ⊢
      rcases List.mem_cons.mp hl with h1 | h2
      · subst h1
        exact ⟨(splitNl (p ++ q)).1, List.mem_cons_self _ _, splitNl_fst_pref p q⟩
      · rcases ih l h2 with ⟨l2, hm, hpf⟩
        exact ⟨l2, List.mem_cons_of_mem _ hm, hpf⟩
    · simp only [if_neg hc] at hl ⊢
      exact ih l hl

theorem findFirstCI_suffix (pat : List Char) :
    ∀ content s : List Char, findFirstCI pat content = some s →
      ∃ a, a ++ s = content := by
  intro content
  induction content with
  | nil =>
    intro s h
    simp only [findFirstCI] at h
    split at h
    · exact ⟨[], by simpa using (Option.some.injEq _ _ ▸ h).symm⟩
    · exact absurd h (by simp)
  | cons c rest ih =>
    intro s h
    simp only [findFirstCI] at h
    split at h
    · refine ⟨[], ?_⟩
      have hs : c :: rest = s := Option.some.inj h
      rw [← hs]
      rfl
    · rcases ih s h with ⟨a, ha⟩
      exact ⟨c :: a, by rw [List.cons_append, ha]⟩

theorem findFirstCI_starts (pat : List Char) :
    ∀ content s : List Char, findFirstCI pat content = some s →
      startsWithCI pat s = true := by
  intro content
  induction content with
  | nil =>
    intro s h
    simp only [findFirstCI] at h
    split at h
    case isTrue hsw =>
      have hs : ([] : List Char) = s := Option.some.inj h
      rw [← hs]
      exact hsw
    case isFalse => simp at h
  | cons c rest ih =>
    intro s h
    simp only [findFirstCI] at h
    split at h
    case isTrue hsw =>
      have hs : c :: rest = s := Option.some.inj h
      rw [← hs]
      exact hsw
    case isFalse => exact ih s h

theorem lcode_eq_hash (c : Char) (h : lcode c = lcode '#') : c = '#' := by
  rw [show lcode '#' = 35 from rfl] at h
  unfold lcode at h
  split at h
  · rename_i hrange
    omega
  · have hc := Char.ofNat_toNat c
    rw [h] at hc
    rw [← hc]

theorem startsWithCI_hash_head (pat s : List Char) (hp : ∃ y, pat = '#' :: y)
    (h : startsWithCI pat s = true) : ∃ z, s = '#' :: z := by
  rcases hp with ⟨y, rfl⟩
  unfold startsWithCI at h
  rw [decide_eq_true_eq] at h
  cases s with
  | nil => simp at h
  | cons c z =>
    refine ⟨z, ?_⟩
    simp only [List.length_cons, List.take_succ_cons, List.map_cons,
      List.cons.injEq] at h
    rw [lcode_eq_hash c h.1]

theorem upToHashes_pref (t : List Char) : listPref (upToHashes t) t := by
  induction t with
  | nil => exact ⟨[], rfl⟩
  | cons c rest ih =>
    cases rest with
    | nil => exact ⟨[], rfl⟩
    | cons d rest2 =>
      simp only [upToHashes]
      by_cases hcd : c = '#' ∧ d = '#'
      · rw [if_pos hcd]
        exact ⟨c :: d :: rest2, rfl⟩
      · rw [if_neg hcd]
        rcases ih with ⟨t2, ht2⟩
        exact ⟨t2, by rw [List.cons_append, ht2]⟩

theorem sectionMatch_shape (heading content sec : List Char)
    (h : sectionMatch heading content = some sec) :
    ∃ s a, a ++ s = content ∧ startsWithCI heading s = true ∧ ∃ w, sec ++ w = s := by
  unfold sectionMatch at h
  cases hf : findFirstCI heading content with
  | none => rw [hf] at h; exact absurd h (by simp)
  | some s =>
    rw [hf] at h
    have hsec : sec = s.take heading.length ++ upToHashes (s.drop heading.length) :=
      (Option.some.inj h).symm
    rcases findFirstCI_suffix heading content s hf with ⟨a, ha⟩
    refine ⟨s, a, ha, findFirstCI_starts heading content s hf, ?_⟩
    rcases upToHashes_pref (s.drop heading.length) with ⟨w, hw⟩
    refine ⟨w, ?_⟩
    rw [hsec, List.append_assoc, hw, List.take_append_drop]

theorem matchBulletLine_none_of_hash (l z : List Char) (h : listPref l ('#' :: z)) :
    matchBulletLine l = none := by
  rcases h with ⟨t, ht⟩
  cases l with
  | nil => rfl
  | cons c l1 =>
    rw [List.cons_append] at ht
    have hc : c = '#' := (List.cons.injEq _ _ _ _ ▸ ht).1
    subst hc
    simp only [matchBulletLine]
    rw [if_neg]
    decide

theorem section_lines_no_bullets (heading content sec : List Char)
    (hh : ∃ y, heading = '#' :: y)
    (hs : sectionMatch heading content = some sec)
    (hc : ∀ l ∈ linesOf content, matchBulletLine l = none) :
    ∀ l ∈ linesOf sec, matchBulletLine l = none := by
  rcases sectionMatch_shape heading content sec hs with ⟨s, a, hasuf, hci, w, hw⟩
  rcases startsWithCI_hash_head heading s hh hci with ⟨z, hz⟩
  intro l hl
  rcases List.mem_cons.mp hl with h1 | h2
  · subst h1
    rcases splitNl_fst_pref sec w with ⟨t, ht⟩
    rw [hw] at ht
    have hs1 : (splitNl s).1 = '#' :: (splitNl z).1 := by
      rw [hz]
      simp [splitNl]
    exact matchBulletLine_none_of_hash _ ((splitNl z).1) ⟨t, by rw [ht, hs1]⟩
  · rcases splitNl_snd_pref sec w l h2 with ⟨l2, hl2mem, t, ht⟩
    rw [hw] at hl2mem
    have hl2 : l2 ∈ linesOf content := by
      have hm := mem_splitNl_snd_append_left a s l2 hl2mem
      rw [hasuf] at hm
      exact List.mem_cons_of_mem _ hm
    have hnone := hc l2 hl2
    by_contra hne
    have hsome : (matchBulletLine l).isSome := Option.ne_none_iff_isSome.mp hne
    have hsome2 := matchBulletLine_append_isSome l t hsome
    rw [ht, hnone] at hsome2
    simp at hsome2

theorem parse_empty_of_no_matches (content : List Char)
    (hb : ∀ l ∈ linesOf content, matchBulletLine l = none)
    (hf : fbScan content = []) : parseREADMEContent content = [] := by
  have href : sectionEntries refEntry (sectionMatch "## Reference Servers".data content) = [] := by
    cases hsec : sectionMatch "## Reference Servers".data content with
    | none => rfl
    | some sec =>
      simp only [sectionEntries]
      rw [List.filterMap_eq_nil_iff]
      intro l hl
      rw [section_lines_no_bullets "## Reference Servers".data content sec
        ⟨"# Reference Servers".data, by decide⟩ hsec hb l hl]
      rfl
  have hcom : sectionEntries comEntry (sectionMatch "## Community Servers".data content) = [] := by
    cases hsec : sectionMatch "## Community Servers".data content with
    | none => rfl
    | some sec =>
      simp only [sectionEntries]
      rw [List.filterMap_eq_nil_iff]
      intro l hl
      rw [section_lines_no_bullets "## Community Servers".data content sec
        ⟨"# Community Servers".data, by decide⟩ hsec hb l hl]
      rfl
  unfold parseREADMEContent passEntries
  rw [hf, href, hcom]
  rfl

theorem getServersData_empty_parse (r : List Char) (now : Int) (st : CacheState)
    (hr : parseREADMEContent r = []) (hcs : st.cachedServers = none) :
    getServersData now (Except.ok r) st =
      (Except.error "Unable to fetch MCP servers from GitHub. Please check your internet connection and GitHub API availability.", st, true) := by
  unfold getServersData getServersDataFetch
  rw [hcs]
  simp [hr]

theorem getServersData_preserves_inv (now : Int) (fetch : Except String (List Char))
    (st : CacheState) (hinv : cacheInv st) :
    cacheInv (getServersData now fetch st).2.1 ∧
    (∀ l, (getServersData now fetch st).1 = Except.ok l → l ≠ []) := by
  unfold getServersData getServersDataFetch
  cases hcs : st.cachedServers with
  | none =>
    cases fetch with
    | error e => exact ⟨by simpa [hcs] using hinv, by simp⟩
    | ok r =>
      by_cases hp : (parseREADMEContent r).length > 0
      · simp only [hp, if_true]
        constructor
        · intro cs hcseq
          have : parseREADMEContent r = cs := Option.some.inj hcseq
          rw [← this]
          exact List.length_pos.mp hp
        · intro l hl
          have : parseREADMEContent r = l := Except.ok.inj hl
          rw [← this]
          exact List.length_pos.mp hp
      · simp only [hp, if_false]
        exact ⟨by simpa [hcs] using hinv, by simp⟩
  | some cs =>
    simp only
    by_cases hfr : now - st.lastFetchTime < CACHE_DURATION
    · simp only [hfr, if_true]
      refine ⟨by simpa [hcs] using hinv, ?_⟩
      intro l hl
      have : cs = l := Except.ok.inj hl
      rw [← this]
      exact hinv cs hcs
    · simp only [hfr, if_false]
      cases fetch with
      | error e => exact ⟨by simpa [hcs] using hinv, by simp⟩
      | ok r =>
        by_cases hp : (parseREADMEContent r).length > 0
        · simp only [hp, if_true]
          constructor
          · intro cs2 hcseq
            have : parseREADMEContent r = cs2 := Option.some.inj hcseq
            rw [← this]
            exact List.length_pos.mp hp
          · intro l hl
            have : parseREADMEContent r = l := Except.ok.inj hl
            rw [← this]
            exact List.length_pos.mp hp
        · simp only [hp, if_false]
          exact ⟨by simpa [hcs] using hinv, by simp⟩

theorem mem_foldl_fbStep (P : Server → Prop) (l : List (List Char × List Char))
    (ss : List Server) (hss : ∀ s ∈ ss, P s)
    (hfb : ∀ nm d, P (fbEntry nm d)) :
    ∀ s ∈ l.foldl fbStep ss, P s := by
  induction l generalizing ss with
  | nil => exact hss
  | cons p l ih =>
    apply ih
    intro s hs
    unfold fbStep at hs
    split at hs
    · split at hs
      · exact hss s hs
      · rcases List.mem_append.mp hs with h1 | h2
        · exact hss s h1
        · rw [List.mem_singleton] at h2
          subst h2
          exact hfb _ _
    · exact hss s hs

theorem sectionEntries_cat (mk : List Char → List Char → Server)
    (sec : Option (List Char)) (cat : List Char)
    (hmk : ∀ nm d, (mk nm d).category = cat) :
    ∀ t ∈ sectionEntries mk sec, t.category = cat := by
  intro t ht
  cases sec with
  | none => simp [sectionEntries] at ht
  | some text =>
    simp only [sectionEntries] at ht
    rcases List.mem_filterMap.mp ht with ⟨l, _, hmap⟩
    rcases Option.map_eq_some'.mp hmap with ⟨p, _, ht2⟩
    rw [← ht2]
    exact hmk p.1 p.2

theorem parse_category_shape (content : List Char) :
    ∀ s ∈ parseREADMEContent content,
      s.category = "official".data ∨ s.category = "community".data := by
  intro s hs
  have hs3 : s ∈ (fbScan content).foldl fbStep (passEntries content) :=
    (List.take_sublist _ _).subset hs
  refine mem_foldl_fbStep
    (fun t => t.category = "official".data ∨ t.category = "community".data)
    (fbScan content) (passEntries content) ?_ ?_ s hs3
  · intro t ht
    unfold passEntries at ht
    rcases List.mem_append.mp ht with h1 | h2
    · exact Or.inl (sectionEntries_cat refEntry _ _ (fun nm d => rfl) t h1)
    · exact Or.inr (sectionEntries_cat comEntry _ _ (fun nm d => rfl) t h2)
  · intro nm d
    unfold fbEntry
    by_cases hmc : (containsSub "MCP".data nm || containsSub "server".data nm) = true
    · left
      simp [hmc]
    · right
      simp [hmc]

theorem count_one_of_nodup_mem {α : Type} [BEq α] [LawfulBEq α] {l : List α} {a : α}
    (hnd : l.Nodup) (ha : a ∈ l) : l.count a = 1 := by
  induction l with
  | nil => simp at ha
  | cons x l ih =>
    rcases List.nodup_cons.mp hnd with ⟨hx, hl⟩
    rcases List.mem_cons.mp ha with h1 | h2
    · subst h1
      rw [List.count_cons_self, List.count_eq_zero.mpr hx]
    · have hne : a ≠ x := fun he => hx (he ▸ h2)
      rw [List.count_cons_of_ne hne, ih hl h2]

/-! ## Claims -/

/-- C1, counterexample: on the end-to-end sample document the extractor
returns three entries, not the two the claim states: the fallback pass
re-discovers the reference bullet under the unprefixed id `filesystem`. -/
theorem c1_counterexample : (parseREADMEContent sampleDoc).length = 3 := by decide

/-- C1, amended: on the sample document `parseREADMEContent` returns
exactly three entries, in order: id `mcp-filesystem` with category
`official`, id `slack-bot` with category `community`, and a third entry
with id `filesystem` and category `community` appended by the fallback
pass (its id derivation omits the `mcp-` prefix, so it does not collide
with `mcp-filesystem`). -/
theorem c1_amended :
    (parseREADMEContent sampleDoc).map (fun s => (s.id, s.category)) =
      [("mcp-filesystem".data, "official".data),
       ("slack-bot".data, "community".data),
       ("filesystem".data, "community".data)] := by decide

/-- C2, counterexample: a document whose reference section repeats a
bullet name yields two entries with the identical id `mcp-foo` — the
section passes perform no de-duplication, so the output of
`parseREADMEContent` can contain duplicate ids. -/
theorem c2_counterexample :
    ¬ ((parseREADMEContent dupDoc).map Server.id).Nodup := by decide

/-- C2, amended: only the fallback pass de-duplicates — whenever a
fallback step appends an entry, the id of that entry is absent from the
entries already collected, so the fallback pass never introduces a
duplicate id.  The reference and community passes append without any
de-duplication, so the output of `parseREADMEContent` can contain
duplicate ids (see the counterexample); whenever the section passes
themselves produce pairwise-distinct ids, the whole output has
pairwise-distinct ids. -/
theorem c2_amended :
    (∀ ss p s, fbStep ss p = ss ++ [s] → s.id ∉ ss.map Server.id) ∧
    (∀ content, ((passEntries content).map Server.id).Nodup →
        ((parseREADMEContent content).map Server.id).Nodup) := by
  constructor
  · intro ss p s heq
    unfold fbStep at heq
    split at heq
    · split at heq
      · exfalso
        have hlen := congrArg List.length heq
        simp at hlen
      · rename_i hlen hany
        have hfs : fbEntry p.1 p.2 = s :=
          (List.cons.injEq _ _ _ _ ▸ List.append_cancel_left heq).1
        intro hmem
        apply hany
        rw [List.any_eq_true]
        rcases List.mem_map.mp hmem with ⟨t, ht, htid⟩
        refine ⟨t, ht, ?_⟩
        rw [← hfs] at htid
        simp only [fbEntry] at htid
        simp [htid]
    · exfalso
      have hlen := congrArg List.length heq
      simp at hlen
  · intro content h
    unfold parseREADMEContent
    rw [List.map_take]
    exact (List.take_sublist _ _).nodup (foldl_fbStep_id_nodup _ _ h)

/-- C2, witness for the amended theorem: both parts applied at concrete
inputs — a fallback step that appends to the empty collection, and the
sample document whose section passes are duplicate-free. -/
theorem c2_witness :
    (fbStep [] ("Foo".data, "bar".data) = [] ++ [fbEntry "Foo".data "bar".data] ∧
      (fbEntry "Foo".data "bar".data).id ∉ ([] : List Server).map Server.id) ∧
    (((passEntries sampleDoc).map Server.id).Nodup ∧
      ((parseREADMEContent sampleDoc).map Server.id).Nodup) :=
  ⟨⟨by decide, c2_amended.1 [] ("Foo".data, "bar".data)
      (fbEntry "Foo".data "bar".data) (by decide)⟩,
   ⟨by decide, c2_amended.2 sampleDoc (by decide)⟩⟩

/-- C3, counterexample: `registry_refresh_data` clears the cache before
fetching, so when the fetch fails the previously held snapshot is not
left in place: the resulting state is the cleared one. -/
theorem c3_counterexample :
    (refreshData 1000 (Except.error "GitHub API error: 500") stWithCache).2.1 ≠ stWithCache ∧
    (refreshData 1000 (Except.error "GitHub API error: 500") stWithCache).2.1 =
      ⟨none, 0⟩ := by
  constructor
  · decide
  · decide

/-- C3, amended: a failure inside `getServersData` (failed fetch or empty
extraction) leaves the cached snapshot and its timestamp unchanged; but a
`registry_refresh_data` call first sets the cache to `(null, 0)`, so after
a failed refresh the cleared state remains, not the previous snapshot. -/
theorem c3_amended (now : Int) (st : CacheState) (e : String) (r : List Char) :
    ((getServersData now (Except.error e) st).2.1 = st) ∧
    (parseREADMEContent r = [] → (getServersData now (Except.ok r) st).2.1 = st) ∧
    ((refreshData now (Except.error e) st).2.1 = ⟨none, 0⟩) := by
  refine ⟨?_, ?_, ?_⟩
  · unfold getServersData getServersDataFetch
    cases hcs : st.cachedServers with
    | none => simp
    | some cs => simp only [hcs]; split <;> simp
  · intro hr
    unfold getServersData getServersDataFetch
    have hnl : ¬ (parseREADMEContent r).length > 0 := by simp [hr]
    cases hcs : st.cachedServers with
    | none => simp [hnl]
    | some cs => simp only [hcs]; split <;> simp [hnl]
  · unfold refreshData getServersData getServersDataFetch
    simp

/-- C3, witness for the amended theorem: an empty README parses to no
entries and a stale cache survives the resulting failure untouched. -/
theorem c3_witness :
    parseREADMEContent "".data = [] ∧
    (getServersData 301001 (Except.ok "".data) stWithCache).2.1 = stWithCache :=
  ⟨by decide, (c3_amended 301001 stWithCache "" "".data).2.1 (by decide)⟩

/-- C4, counterexample: a document with zero recognizable bullet lines
whose extraction is nonetheless non-empty — the fallback pass matches the
generic `**name** - description` shape without any bullet. -/
theorem c4_counterexample :
    ((linesOf noBulletDoc).all (fun l => (matchBulletLine l).isNone)) = true ∧
    parseREADMEContent noBulletDoc ≠ [] := by
  constructor
  · decide
  · decide

/-- C4, amended: extraction returns the empty sequence for every document
in which no line matches the bullet pattern AND the fallback scan finds no
match; whenever extraction is empty and no snapshot is cached, `get()`
throws the explicit unable-to-fetch error leaving the cache unchanged;
and `get()` never returns an empty snapshot (the cache never holds an
empty list, an invariant `get()` preserves). -/
theorem c4_amended :
    (∀ content, (∀ l ∈ linesOf content, matchBulletLine l = none) →
        fbScan content = [] → parseREADMEContent content = []) ∧
    (∀ r now st, parseREADMEContent r = [] → st.cachedServers = none →
        getServersData now (Except.ok r) st =
          (Except.error "Unable to fetch MCP servers from GitHub. Please check your internet connection and GitHub API availability.", st, true)) ∧
    (∀ now fetch st, cacheInv st →
        cacheInv (getServersData now fetch st).2.1 ∧
        (∀ l, (getServersData now fetch st).1 = Except.ok l → l ≠ [])) :=
  ⟨parse_empty_of_no_matches,
   fun r now st hr hcs => getServersData_empty_parse r now st hr hcs,
   fun now fetch st hinv => getServersData_preserves_inv now fetch st hinv⟩

/-- C4, witness: a concrete match-free document extracts to the empty
sequence via the amended theorem. -/
theorem c4_witness :
    (∀ l ∈ linesOf "hello world".data, matchBulletLine l = none) ∧
    fbScan "hello world".data = [] ∧
    parseREADMEContent "hello world".data = [] :=
  ⟨by decide, by decide, c4_amended.1 "hello world".data (by decide) (by decide)⟩

/-- C5: a fresh cached snapshot (younger than `CACHE_DURATION`) is
returned unchanged with no fetch; a first call on an empty cache fetches
and a second call within the window does not (exactly one fetch); and
`registry_refresh_data` always fetches. -/
theorem c5_theorem :
    (∀ now fetch st cs, st.cachedServers = some cs →
        now - st.lastFetchTime < CACHE_DURATION →
        getServersData now fetch st = (Except.ok cs, st, false))
    ∧ (∀ t0 t1 t2 : Int, ∀ r fetch2, parseREADMEContent r ≠ [] →
        t2 - t1 < CACHE_DURATION →
        (getServersData t1 (Except.ok r) ⟨none, t0⟩).2.2 = true ∧
        (getServersData t2 fetch2 ((getServersData t1 (Except.ok r) ⟨none, t0⟩).2.1)).2.2 = false)
    ∧ (∀ now fetch st, (refreshData now fetch st).2.2 = true) := by
  refine ⟨?_, ?_, ?_⟩
  · intro now fetch st cs hcs hfresh
    unfold getServersData
    rw [hcs]
    simp [hfresh]
  · intro t0 t1 t2 r fetch2 hr hfresh
    have hlen : (parseREADMEContent r).length > 0 := List.length_pos.mpr hr
    have h1 : getServersData t1 (Except.ok r) ⟨none, t0⟩ =
        (Except.ok (parseREADMEContent r), ⟨some (parseREADMEContent r), t1⟩, true) := by
      unfold getServersData getServersDataFetch
      simp [hlen]
    rw [h1]
    refine ⟨rfl, ?_⟩
    unfold getServersData
    simp [hfresh]
  · intro now fetch st
    unfold refreshData getServersData getServersDataFetch
    cases fetch with
    | error e => simp
    | ok r => simp only; split <;> simp

/-- C5, witness: concrete two-call scenario with one fetch. -/
theorem c5_witness :
    parseREADMEContent sampleDoc ≠ [] ∧
    (getServersData 0 (Except.ok sampleDoc) ⟨none, 0⟩).2.2 = true ∧
    (getServersData 1 (Except.error "offline")
      ((getServersData 0 (Except.ok sampleDoc) ⟨none, 0⟩).2.1)).2.2 = false :=
  ⟨by decide, (c5_theorem.2.1 0 0 1 sampleDoc (Except.error "offline")
      (by decide) (by decide)).1,
    (c5_theorem.2.1 0 0 1 sampleDoc (Except.error "offline")
      (by decide) (by decide)).2⟩

/-- C6, counterexample: an explicitly given empty-string category is falsy
in the source and skips the category filter, so the result is not
restricted to entries whose category equals the empty string. -/
theorem c6_counterexample :
    searchServers [fsEntry] none (some ([] : List Char)) none = [fsEntry] ∧
    matchesCat [] fsEntry = false := by
  constructor
  · decide
  · decide

/-- C6, amended: for non-empty `query` and `category` the handler returns
exactly the snapshot entries matching the query (name, description or a
tag contains it case-insensitively) AND the category (exact
case-insensitive match), truncated to the first `limit` entries (default
20) in snapshot order; with either filter absent that conjunct is
dropped, and an empty-string query or category is treated as absent. -/
theorem c6_amended (servers : List Server) (q c : List Char) (lim : Option Nat)
    (hq : q ≠ []) (hc : c ≠ []) :
    (searchServers servers (some q) (some c) lim =
      (servers.filter (fun s => matchesQuery q s && matchesCat c s)).take (lim.getD 20))
    ∧ (searchServers servers (some q) none lim =
        (servers.filter (matchesQuery q)).take (lim.getD 20))
    ∧ (searchServers servers none (some c) lim =
        (servers.filter (matchesCat c)).take (lim.getD 20))
    ∧ (searchServers servers none none lim = servers.take (lim.getD 20))
    ∧ (searchServers servers (some []) (some []) lim = servers.take (lim.getD 20)) := by
  have hff : (servers.filter (matchesQuery q)).filter (matchesCat c) =
      servers.filter (fun s => matchesQuery q s && matchesCat c s) := by
    rw [List.filter_filter]
    exact List.filter_congr (fun a _ => Bool.and_comm _ _)
  refine ⟨?_, ?_, ?_, ?_, ?_⟩
  · simp [searchServers, hq, hc, hff]
  · simp [searchServers, hq]
  · simp [searchServers, hc]
  · simp [searchServers]
  · simp [searchServers]

/-- C6, witness for the amended theorem. -/
theorem c6_witness :
    ("file".data ≠ ([] : List Char)) ∧ ("OFFICIAL".data ≠ ([] : List Char)) ∧
    searchServers [fsEntry, sbEntry] (some "file".data) (some "OFFICIAL".data) none =
      ([fsEntry, sbEntry].filter
        (fun s => matchesQuery "file".data s && matchesCat "OFFICIAL".data s)).take 20 :=
  ⟨by decide, by decide,
    (c6_amended [fsEntry, sbEntry] "file".data "OFFICIAL".data none
      (by decide) (by decide)).1⟩

/-- C7: with a non-empty `serverId`, the details handler returns the
detail of the first entry whose id or name equals `serverId` or equals
`serverId` prefixed with `mcp-`; when no entry matches it returns a plain
not-found result with the error flag unset. -/
theorem c7_theorem (servers : List Server) (sid : List Char) (h : sid ≠ []) :
    (∀ s, findServer servers sid = some s →
      getServerDetails servers sid = (DetailsResult.detail s, false) ∧ s ∈ servers ∧
        (s.id = sid ∨ s.name = sid ∨
         s.id = "mcp-".data ++ sid ∨ s.name = "mcp-".data ++ sid))
    ∧ (findServer servers sid = none →
        getServerDetails servers sid = (DetailsResult.notFound, false)) := by
  constructor
  · intro s hs
    refine ⟨?_, List.mem_of_find?_eq_some hs, ?_⟩
    · simp [getServerDetails, h, hs]
    · have hp := List.find?_some hs
      simp only [Bool.or_eq_true, beq_iff_eq] at hp
      tauto
  · intro hs
    simp [getServerDetails, h, hs]

/-- C7, witness: the prefix-tolerant lookup `filesystem` finds the entry
with id `mcp-filesystem`. -/
theorem c7_witness :
    ("filesystem".data ≠ ([] : List Char)) ∧
    getServerDetails [fsEntry] "filesystem".data =
      (DetailsResult.detail fsEntry, false) :=
  ⟨by decide, ((c7_theorem [fsEntry] "filesystem".data (by decide)).1 fsEntry (by decide)).1⟩

/-- C8: for every snapshot whose entries have non-empty categories, the
per-category counts of `registry_list_categories` sum to the snapshot
size, every category present in the snapshot appears exactly once in the
output, and each output description is the static-table lookup of the
category name (with its generic fallback for unknown keys).  The last
conjunct grounds the hypothesis: every entry `parseREADMEContent` emits
has category `official` or `community`, hence non-empty. -/
theorem c8_theorem (servers : List Server) (h : ∀ s ∈ servers, s.category ≠ []) :
    (((listCategories servers).map (fun x => x.2.1)).sum = servers.length) ∧
    (∀ c, (∃ s ∈ servers, s.category = c) →
      ((listCategories servers).map (fun x => x.1)).count c = 1) ∧
    (∀ x ∈ listCategories servers, x.2.2 = getCategoryDescription x.1) ∧
    (∀ content, ∀ s ∈ parseREADMEContent content, s.category ≠ []) := by
  have hground : ∀ content, ∀ s ∈ parseREADMEContent content, s.category ≠ [] := by
    intro content s hs
    rcases parse_category_shape content s hs with h1 | h1 <;> rw [h1] <;> decide
  have hfst : (listCategories servers).map (fun x => x.1)
      = (categoriesOf servers).map Prod.fst := by
    unfold listCategories
    rw [List.map_map]
    rfl
  have hsnd : (listCategories servers).map (fun x => x.2.1)
      = (categoriesOf servers).map Prod.snd := by
    unfold listCategories
    rw [List.map_map]
    rfl
  rcases categoriesOf_aux servers [] (by simp) with ⟨h1, h2, h3, h4⟩
  refine ⟨?_, ?_, ?_, hground⟩
  · rw [hsnd]
    unfold categoriesOf
    simpa using h2
  · intro c hc
    rcases hc with ⟨s, hs, hsc⟩
    have heff : effCategory s = c := by
      unfold effCategory
      rw [if_neg (h s hs), hsc]
    rw [hfst]
    unfold categoriesOf
    apply count_one_of_nodup_mem h1
    rw [← heff]
    exact h4 s hs
  · intro x hx
    unfold listCategories at hx
    rcases List.mem_map.mp hx with ⟨p, hp, hpx⟩
    rw [← hpx]

/-- C8, witness at a concrete two-entry snapshot. -/
theorem c8_witness :
    (∀ s ∈ [fsEntry, sbEntry], s.category ≠ []) ∧
    ((listCategories [fsEntry, sbEntry]).map (fun x => x.2.1)).sum = 2 :=
  ⟨by decide, (c8_theorem [fsEntry, sbEntry] (by decide)).1⟩

/-- C9: every entry built by the reference-servers pass has its `name`
equal to its `id`, namely the `mcp-`-prefixed lowercased hyphen-joined
form of the bold bullet text; the original display text is never preserved
(it can never equal the stored name or id), so an exact name or id
comparison against the display text misses the entry. -/
theorem c9_theorem (nm desc : List Char) :
    (refEntry nm desc).name = (refEntry nm desc).id ∧
    (refEntry nm desc).id = "mcp-".data ++ normSp nm ∧
    (refEntry nm desc).name ≠ nm ∧ (refEntry nm desc).id ≠ nm :=
  ⟨rfl, rfl, mcp_append_normSp_ne nm, mcp_append_normSp_ne nm⟩

/-- C10: an explicit `limit` of 0 yields an empty result; the default of
20 is what an absent `limit` resolves to. -/
theorem c10_theorem (servers : List Server) (q c : Option (List Char)) :
    searchServers servers q c (some 0) = [] ∧
    searchServers servers q c none = searchServers servers q c (some 20) := by
  constructor
  · simp [searchServers]
  · rfl

end MCPRegistry
